import Mathlib

/-!
Verification development for the FiniteStateMachinePV repository.

The Python source (`fsm.py`, `export_utils.py`) is shallowly embedded:

* `Transition`, `State`, `FiniteStateMachine` mirror the classes in `fsm.py`.
  The dict `FiniteStateMachine.states` (insertion ordered, unique keys) is an
  association list; `start_state`, a reference to a `State` object whose name
  is a key of the dict, is embedded as the optional name of that state.
* Methods that can raise (`KeyError` from a dict access, `ValueError` from an
  explicit check) return `Except PyErr _` or pair their result with
  `Option PyErr`; `FiniteStateMachine.add_transition` returns the (possibly
  partially mutated) machine together with the optional error, because the
  Python method mutates `self` in place before the failing dict access.
* Python `set` objects whose iteration order is implementation defined
  (`current_states`, the epsilon closure, `set(self.states.keys()) - reachable`)
  are embedded as lists in a canonical order (`List.dedup` for `list(set(..))`,
  insertion order for the closure); all properties proved about them are
  order independent (membership / `toFinset` equality), which is exactly what
  the spec guarantees about those values.
* The `while stack:` loops of `_get_epsilon_closure` and
  `_get_reachable_states` are embedded with an explicit fuel argument that is
  a proved upper bound on the number of iterations of the Python loop; the
  lemmas `closureLoop_spec` and `reachLoop_total` show the fuel never runs
  out, so `none` results of the wrappers correspond exactly to a `KeyError`
  in the Python loop body.
-/

/-- Python exceptions relevant to `fsm.py`. -/
inductive PyErr where
  | keyError (key : String)
  | valueError (msg : String)
deriving DecidableEq, Repr

/-- `class Transition` (fsm.py): an ordered triple. -/
structure Transition where
  from_state : String
  to_state : String
  symbol : String
deriving DecidableEq, Repr

/-- `class State` (fsm.py): name, flags, and the two relationship lists. -/
structure State where
  name : String
  is_start : Bool
  is_final : Bool
  in_transitions : List Transition
  out_transitions : List Transition
deriving DecidableEq, Repr

/-- `State.add_transition` (fsm.py lines 46-57). -/
def State.add_transition (s : State) (t : Transition) (is_outgoing : Bool) : State :=
  if is_outgoing then { s with out_transitions := s.out_transitions ++ [t] }
  else { s with in_transitions := s.in_transitions ++ [t] }

/-- `State.get_transitions_by_symbol` (fsm.py lines 71-85). -/
def State.get_transitions_by_symbol (s : State) (symbol : String) : List String :=
  (s.out_transitions.filter (fun t => t.symbol == symbol)).map (·.to_state)

/-- `class FiniteStateMachine` (fsm.py): state dict (association list in
insertion order), alphabet set, optional start state (stored by name). -/
structure FiniteStateMachine where
  states : List (String × State)
  alphabet : Finset String
  start_state : Option String
deriving DecidableEq

abbrev FSM := FiniteStateMachine

/-- The keys of the state dict, in insertion order. -/
def stateNames (m : FSM) : List String := m.states.map Prod.fst

/-- Mutation of the `State` object stored under a key of the dict. -/
def updateState (l : List (String × State)) (k : String) (f : State → State) :
    List (String × State) :=
  l.map (fun p => if p.1 = k then (p.1, f p.2) else p)

/-- `FiniteStateMachine.__init__`. -/
def FSM.empty : FSM := ⟨[], ∅, none⟩

/-- `FiniteStateMachine.add_state` (fsm.py lines 114-140).  On a duplicate
name it raises `ValueError`; otherwise it stores the fresh state and, when
`is_start` is set, overwrites the start reference (the warning `print` has no
model content). -/
def FSM.add_state (m : FSM) (name : String) (is_start : Bool := false)
    (is_final : Bool := false) : Except PyErr FSM :=
  if name ∈ stateNames m then
    .error (.valueError ("Состояние с именем '" ++ name ++ "' уже существует"))
  else
    let st : State := ⟨name, is_start, is_final, [], []⟩
    let m1 : FSM := { m with states := m.states ++ [(name, st)] }
    .ok (if is_start then { m1 with start_state := some name } else m1)

/-- `FiniteStateMachine.add_transition` (fsm.py lines 142-167).  The method
performs NO existence check: it mutates `self.states[from_name]` (raising
`KeyError` if absent), then `self.states[to_name]` (raising `KeyError` if
absent, with the first mutation already done), then extends the alphabet.
The returned machine is the in-place mutated object at the moment the method
returns or the exception escapes. -/
def FSM.add_transition (m : FSM) (from_name to_name symbol : String) :
    FSM × Option PyErr :=
  let t : Transition := ⟨from_name, to_name, symbol⟩
  match m.states.lookup from_name with
  | none => (m, some (.keyError from_name))
  | some _ =>
    let m1 : FSM :=
      { m with states := updateState m.states from_name (fun s => s.add_transition t true) }
    match m1.states.lookup to_name with
    | none => (m1, some (.keyError to_name))
    | some _ =>
      let m2 : FSM :=
        { m1 with states := updateState m1.states to_name (fun s => s.add_transition t false) }
      if symbol ≠ "epsilon" then ({ m2 with alphabet := insert symbol m2.alphabet }, none)
      else (m2, none)

/-- `FiniteStateMachine.set_start_state` (fsm.py lines 169-188). -/
def FSM.set_start_state (m : FSM) (state_name : String) : Except PyErr FSM :=
  if state_name ∉ stateNames m then
    .error (.valueError ("Состояние '" ++ state_name ++ "' не существует"))
  else
    let m1 : FSM :=
      match m.start_state with
      | none => m
      | some old => { m with states := updateState m.states old (fun s => { s with is_start := false }) }
    .ok { m1 with
          states := updateState m1.states state_name (fun s => { s with is_start := true }),
          start_state := some state_name }

/-! ### Basic lookup lemmas -/

theorem mem_of_lookup_eq_some {l : List (String × State)} {k : String} {v : State}
    (h : l.lookup k = some v) : (k, v) ∈ l := by
  induction l with
  | nil => simp [List.lookup] at h
  | cons p l ih =>
    rw [List.lookup] at h
    by_cases hk : k == p.1
    · simp only [hk, if_pos] at h
      cases p
      simp_all [eq_of_beq hk]
    · simp only [hk] at h
      exact List.mem_cons_of_mem _ (ih (by simpa using h))

theorem lookup_isSome_of_mem {l : List (String × State)} {k : String}
    (h : k ∈ l.map Prod.fst) : ∃ v, l.lookup k = some v := by
  induction l with
  | nil => simp at h
  | cons p l ih =>
    rw [List.lookup]
    by_cases hk : k == p.1
    · exact ⟨p.2, by simp [hk]⟩
    · simp only [hk]
      rw [List.map_cons, List.mem_cons] at h
      rcases h with h1 | h1
      · exact absurd (by simp [h1]) hk
      · exact ih h1

/-! ### Epsilon closure (`FSMMatplotlibVisualizer._get_epsilon_closure`,
export_utils.py lines 402-416) -/

/-- All `to_state` fields of transitions reachable from the state dict; the
worklist of the closure loop only ever acquires such names, which bounds the
number of loop iterations. -/
def allTargets (m : FSM) : Finset String :=
  (m.states.flatMap (fun p => p.2.out_transitions.map (·.to_state))).toFinset

theorem targets_mem_allTargets {m : FSM} {k : String} {st : State}
    (h : m.states.lookup k = some st) {t : Transition} (ht : t ∈ st.out_transitions) :
    t.to_state ∈ allTargets m := by
  have hm : (k, st) ∈ m.states := mem_of_lookup_eq_some h
  simp only [allTargets, List.mem_toFinset, List.mem_flatMap]
  exact ⟨(k, st), hm, List.mem_map_of_mem _ ht⟩

/-- The `for transition in state.out_transitions:` body of
`_get_epsilon_closure`: each epsilon target not yet in the closure is added to
the closure and pushed on the stack (the list head is the top of the Python
stack, since `list.pop()` removes the last appended element). -/
def processEps (ts : List Transition) (closure : List String) (stack : List String) :
    List String × List String :=
  ts.foldl (fun acc t =>
    if t.symbol = "epsilon" ∧ t.to_state ∉ acc.1 then
      (acc.1 ++ [t.to_state], t.to_state :: acc.2)
    else acc) (closure, stack)

/-- `while stack:` of `_get_epsilon_closure`.  `fuel` bounds the number of
iterations; `none` is returned on the `KeyError` of `self.fsm.states[current]`
or on fuel exhaustion (shown impossible in `closureLoop_spec`). -/
def closureLoop (m : FSM) : Nat → List String → List String → Option (List String)
  | 0, _, _ => none
  | _ + 1, closure, [] => some closure
  | fuel + 1, closure, current :: rest =>
    match m.states.lookup current with
    | none => none
    | some st =>
      let r := processEps st.out_transitions closure rest
      closureLoop m fuel r.1 r.2

/-- `_get_epsilon_closure(states)`: `closure = set(states)` (embedded as the
canonically deduplicated list), `stack = list(states)` (head of the model
list = top of the Python stack, hence reversed), then the worklist loop. -/
def getEpsilonClosure (m : FSM) (states : List String) : Option (List String) :=
  closureLoop m (states.length + (allTargets m).card + 1) states.dedup states.reverse

/-- The outgoing-transition list the simulator reads for a state name
(`self.fsm.states[name].out_transitions`), defaulting to `[]` for an absent
name (every use is guarded by a successful lookup). -/
def outOf (m : FSM) (x : String) : List Transition :=
  ((m.states.lookup x).map State.out_transitions).getD []

/-- A state-name list is closed under epsilon transitions of `m`. -/
def epsClosedL (m : FSM) (c : List String) : Prop :=
  ∀ x ∈ c, ∀ t ∈ outOf m x, t.symbol = "epsilon" → t.to_state ∈ c

instance (m : FSM) (c : List String) : Decidable (epsClosedL m c) := by
  unfold epsClosedL; infer_instance

/-- Referential integrity of the transition structure: every target of a
stored outgoing transition is itself a key of the state dict.  Machines built
through `add_state`/`add_transition` without errors satisfy this. -/
def wfTargets (m : FSM) : Prop :=
  ∀ p ∈ m.states, ∀ t ∈ p.2.out_transitions, t.to_state ∈ stateNames m

instance (m : FSM) : Decidable (wfTargets m) := by
  unfold wfTargets; infer_instance

theorem outOf_eq_of_lookup {m : FSM} {x : String} {st : State}
    (h : m.states.lookup x = some st) : outOf m x = st.out_transitions := by
  simp [outOf, h]

theorem wfTargets_mem {m : FSM} (hwf : wfTargets m) {x : String} {st : State}
    (h : m.states.lookup x = some st) {t : Transition} (ht : t ∈ st.out_transitions) :
    t.to_state ∈ stateNames m :=
  hwf _ (mem_of_lookup_eq_some h) _ ht

/-! ### `processEps` facts -/

theorem processEps_mono (ts : List Transition) (c s : List String) :
    ∀ x ∈ c, x ∈ (processEps ts c s).1 := by
  induction ts generalizing c s with
  | nil => simp [processEps]
  | cons t ts ih =>
    intro x hx
    simp only [processEps, List.foldl_cons]
    split
    · exact ih _ _ x (List.mem_append_left _ hx)
    · exact ih _ _ x hx

theorem processEps_subset (ts : List Transition) (c s : List String) :
    ∀ x ∈ (processEps ts c s).1,
      x ∈ c ∨ ∃ t ∈ ts, t.symbol = "epsilon" ∧ t.to_state = x := by
  induction ts generalizing c s with
  | nil => simp [processEps]
  | cons t ts ih =>
    intro x hx
    simp only [processEps, List.foldl_cons] at hx
    split at hx
    · rcases ih _ _ x hx with h1 | ⟨u, hu, hsym, hto⟩
      · rcases List.mem_append.1 h1 with h2 | h2
        · exact Or.inl h2
        · rename_i hc
          exact Or.inr ⟨t, List.mem_cons_self _ _, hc.1, (List.mem_singleton.1 h2).symm⟩
      · exact Or.inr ⟨u, List.mem_cons_of_mem _ hu, hsym, hto⟩
    · rcases ih _ _ x hx with h1 | ⟨u, hu, hsym, hto⟩
      · exact Or.inl h1
      · exact Or.inr ⟨u, List.mem_cons_of_mem _ hu, hsym, hto⟩

theorem processEps_stack_mem (ts : List Transition) (c s : List String)
    (h : ∀ x ∈ s, x ∈ c) : ∀ x ∈ (processEps ts c s).2, x ∈ (processEps ts c s).1 := by
  induction ts generalizing c s with
  | nil => simpa [processEps] using h
  | cons t ts ih =>
    simp only [processEps, List.foldl_cons]
    split
    · exact ih _ _ (by
        intro x hx
        rcases List.mem_cons.1 hx with h1 | h1
        · exact List.mem_append_right _ (by simp [h1])
        · exact List.mem_append_left _ (h x h1))
    · exact ih _ _ h

theorem processEps_stack_super (ts : List Transition) (c s : List String) :
    ∀ x ∈ s, x ∈ (processEps ts c s).2 := by
  induction ts generalizing c s with
  | nil => simp [processEps]
  | cons t ts ih =>
    intro x hx
    simp only [processEps, List.foldl_cons]
    split
    · exact ih _ _ x (List.mem_cons_of_mem _ hx)
    · exact ih _ _ x hx

theorem processEps_new_in_stack (ts : List Transition) (c s : List String) :
    ∀ x ∈ (processEps ts c s).1, x ∉ c → x ∈ (processEps ts c s).2 := by
  induction ts generalizing c s with
  | nil => exact fun x hx hxc => absurd hx hxc
  | cons t ts ih =>
    intro x hx hxc
    simp only [processEps, List.foldl_cons] at hx ⊢
    by_cases hc : t.symbol = "epsilon" ∧ t.to_state ∉ c
    · rw [if_pos hc] at hx ⊢
      by_cases hxt : x = t.to_state
      · exact processEps_stack_super _ _ _ x (by simp [hxt])
      · exact ih _ _ x hx (by
          intro h1
          rcases List.mem_append.1 h1 with h2 | h2
          · exact hxc h2
          · exact hxt (List.mem_singleton.1 h2))
    · rw [if_neg hc] at hx ⊢
      exact ih _ _ x hx hxc

theorem processEps_eps_done (ts : List Transition) (c s : List String) :
    ∀ t ∈ ts, t.symbol = "epsilon" → t.to_state ∈ (processEps ts c s).1 := by
  induction ts generalizing c s with
  | nil => simp
  | cons t ts ih =>
    intro u hu hsym
    simp only [processEps, List.foldl_cons]
    rcases List.mem_cons.1 hu with h1 | h1
    · subst h1
      by_cases hc : u.to_state ∈ c
      · split
        · exact processEps_mono _ _ _ _ (List.mem_append_left _ hc)
        · exact processEps_mono _ _ _ _ hc
      · rw [if_pos ⟨hsym, hc⟩]
        exact processEps_mono _ _ _ _ (List.mem_append_right _ (by simp))
    · split
      · exact ih _ _ u h1 hsym
      · exact ih _ _ u h1 hsym

theorem processEps_nodup (ts : List Transition) (c s : List String) (h : c.Nodup) :
    (processEps ts c s).1.Nodup := by
  induction ts generalizing c s with
  | nil => simpa [processEps]
  | cons t ts ih =>
    simp only [processEps, List.foldl_cons]
    split
    · rename_i hc
      exact ih _ _ ((List.nodup_append.2 ⟨h, by simp, by simpa using hc.2⟩))
    · exact ih _ _ h

theorem processEps_noop (ts : List Transition) (c s : List String)
    (h : ∀ t ∈ ts, t.symbol = "epsilon" → t.to_state ∈ c) :
    processEps ts c s = (c, s) := by
  induction ts with
  | nil => simp [processEps]
  | cons t ts ih =>
    simp only [processEps, List.foldl_cons]
    rw [if_neg (by
      intro hc
      exact hc.2 (h t (List.mem_cons_self _ _) hc.1))]
    exact ih (fun u hu hsym => h u (List.mem_cons_of_mem _ hu) hsym)

theorem processEps_measure (m : FSM) (ts : List Transition) (c s : List String)
    (hts : ∀ t ∈ ts, t.symbol = "epsilon" → t.to_state ∈ allTargets m) :
    (processEps ts c s).2.length + ((allTargets m) \ (processEps ts c s).1.toFinset).card ≤
      s.length + ((allTargets m) \ c.toFinset).card := by
  induction ts generalizing c s with
  | nil => simp [processEps]
  | cons t ts ih =>
    simp only [processEps, List.foldl_cons]
    split
    · rename_i hc
      refine le_trans (ih _ _ (fun u hu h => hts u (List.mem_cons_of_mem _ hu) h)) ?_
      have hx : t.to_state ∈ allTargets m \ c.toFinset :=
        Finset.mem_sdiff.2 ⟨hts t (List.mem_cons_self _ _) hc.1, by
          simpa [List.mem_toFinset] using hc.2⟩
      have h1 : (c ++ [t.to_state]).toFinset = insert t.to_state c.toFinset := by
        simp [List.toFinset_append]
        exact Finset.union_comm _ _
      rw [h1, Finset.sdiff_insert, Finset.card_erase_of_mem hx]
      have h2 : 1 ≤ ((allTargets m) \ c.toFinset).card :=
        Finset.card_pos.2 ⟨_, hx⟩
      simp only [List.length_cons]
      omega
    · exact ih _ _ (fun u hu h => hts u (List.mem_cons_of_mem _ hu) h)

/-- Invariant-carrying correctness of the closure worklist: with enough fuel
the loop terminates without `KeyError`, its result contains the initial
closure, stays inside the state dict, is closed under epsilon transitions,
and has no duplicates. -/
theorem closureLoop_spec (m : FSM) (hwf : wfTargets m) :
    ∀ (fuel : Nat) (closure stack : List String),
      stack.length + ((allTargets m) \ closure.toFinset).card < fuel →
      (∀ x ∈ stack, x ∈ closure) →
      (∀ x ∈ closure, x ∈ stateNames m) →
      (∀ x ∈ closure, x ∉ stack → ∀ t ∈ outOf m x, t.symbol = "epsilon" → t.to_state ∈ closure) →
      closure.Nodup →
      ∃ r, closureLoop m fuel closure stack = some r ∧
        (∀ x ∈ closure, x ∈ r) ∧ (∀ x ∈ r, x ∈ stateNames m) ∧ epsClosedL m r ∧ r.Nodup := by
  intro fuel
  induction fuel with
  | zero => intro _ _ h; omega
  | succ fuel ih =>
    intro closure stack hfuel hstack hkeys hfront hnodup
    match stack with
    | [] =>
      refine ⟨closure, rfl, fun x hx => hx, hkeys, ?_, hnodup⟩
      exact fun x hx => hfront x hx (by simp)
    | current :: rest =>
      obtain ⟨st, hst⟩ := lookup_isSome_of_mem (hkeys current (hstack current (by simp)))
      have hloop : closureLoop m (fuel + 1) closure (current :: rest) =
          closureLoop m fuel (processEps st.out_transitions closure rest).1
            (processEps st.out_transitions closure rest).2 := by
        rw [closureLoop, hst]
      rw [hloop]
      have houtOf : outOf m current = st.out_transitions := outOf_eq_of_lookup hst
      have hA : ∀ t ∈ st.out_transitions, t.symbol = "epsilon" → t.to_state ∈ allTargets m :=
        fun t ht _ => targets_mem_allTargets hst ht
      obtain ⟨r, hr, hsup, hrk, hcl, hrn⟩ := ih (processEps st.out_transitions closure rest).1
        (processEps st.out_transitions closure rest).2
        (by
          have := processEps_measure m st.out_transitions closure rest hA
          have hlen : (current :: rest).length = rest.length + 1 := by simp
          omega)
        (processEps_stack_mem _ _ _ (fun x hx => hstack x (List.mem_cons_of_mem _ hx)))
        (by
          intro x hx
          rcases processEps_subset _ _ _ x hx with h1 | ⟨t, ht, _, hto⟩
          · exact hkeys x h1
          · exact hto ▸ wfTargets_mem hwf hst ht)
        (by
          intro x hx hxs t ht hsym
          by_cases hxc : x ∈ closure
          · by_cases hxcur : x = current
            · subst hxcur
              rw [houtOf] at ht
              exact processEps_eps_done _ _ _ t ht hsym
            · have hxrest : x ∉ rest := fun h1 => hxs (processEps_stack_super _ _ _ x h1)
              exact processEps_mono _ _ _ _
                (hfront x hxc (by simp [hxcur, hxrest]) t ht hsym)
          · exact absurd (processEps_new_in_stack _ _ _ x hx hxc) hxs)
        (processEps_nodup _ _ _ hnodup)
      exact ⟨r, hr, fun x hx => hsup x (processEps_mono _ _ _ x hx), hrk, hcl, hrn⟩

/-- Running the closure worklist on an already epsilon-closed set adds
nothing and returns the set unchanged. -/
theorem closureLoop_stable (m : FSM) (c : List String) (hcl : epsClosedL m c)
    (hkeys : ∀ x ∈ c, x ∈ stateNames m) :
    ∀ (fuel : Nat) (s : List String), s.length < fuel → (∀ x ∈ s, x ∈ c) →
      closureLoop m fuel c s = some c := by
  intro fuel
  induction fuel with
  | zero => intro _ h; omega
  | succ fuel ih =>
    intro s hfuel hs
    match s with
    | [] => rfl
    | current :: rest =>
      obtain ⟨st, hst⟩ := lookup_isSome_of_mem (hkeys current (hs current (by simp)))
      have hnoop : processEps st.out_transitions c rest = (c, rest) :=
        processEps_noop _ _ _ (fun t ht hsym =>
          hcl current (hs current (by simp)) t ((outOf_eq_of_lookup hst) ▸ ht) hsym)
      rw [closureLoop, hst]
      simp only [hnoop]
      exact ih rest (by simp at hfuel ⊢; omega) (fun x hx => hs x (List.mem_cons_of_mem _ hx))

/-- Full specification of `_get_epsilon_closure` on inputs whose members are
present states of a referentially intact machine. -/
theorem getEpsilonClosure_spec (m : FSM) (hwf : wfTargets m) (L : List String)
    (hL : ∀ x ∈ L, x ∈ stateNames m) :
    ∃ r, getEpsilonClosure m L = some r ∧
      (∀ x ∈ L, x ∈ r) ∧ (∀ x ∈ r, x ∈ stateNames m) ∧ epsClosedL m r ∧ r.Nodup := by
  obtain ⟨r, hr, hsup, hrk, hcl, hrn⟩ := closureLoop_spec m hwf
    (L.length + (allTargets m).card + 1) L.dedup L.reverse
    (by
      have h1 : ((allTargets m) \ L.dedup.toFinset).card ≤ (allTargets m).card :=
        Finset.card_le_card (Finset.sdiff_subset)
      simp only [List.length_reverse]
      omega)
    (fun x hx => List.mem_dedup.2 (List.mem_reverse.1 hx))
    (fun x hx => hL x (List.mem_dedup.1 hx))
    (fun x hx hxs => absurd (List.mem_reverse.2 (List.mem_dedup.1 hx)) hxs)
    (List.nodup_dedup L)
  exact ⟨r, hr, fun x hx => hsup x (List.mem_dedup.2 hx), hrk, hcl, hrn⟩

/-- The epsilon closure of an epsilon-closed duplicate-free present set is
that set itself. -/
theorem getEpsilonClosure_stable (m : FSM) (c : List String) (hcl : epsClosedL m c)
    (hkeys : ∀ x ∈ c, x ∈ stateNames m) (hnodup : c.Nodup) :
    getEpsilonClosure m c = some c := by
  unfold getEpsilonClosure
  rw [hnodup.dedup]
  exact closureLoop_stable m c hcl hkeys _ c.reverse
    (by simp; omega) (fun x hx => List.mem_reverse.1 hx)

/-! ### Simulation engine (`FSMMatplotlibVisualizer.create_animation_frames`,
export_utils.py lines 315-400) -/

/-- One animation frame `(current states, fired transitions, text)`.
Python stores the state collection as `list(...)` of a `set` whose iteration
order is implementation defined; the embedding fixes a canonical order, and
every claim about frames is stated up to that order (membership or
`toFinset`). -/
abbrev Frame := List String × List (String × String × String) × String

instance : DecidableEq Frame := inferInstance

instance : DecidableEq (List (String × String × String)) := inferInstance

instance : DecidableEq (Finset String) := inferInstance

instance : DecidableEq (List (String × String × String) × String) := inferInstance

instance : DecidableEq (Finset String × List (String × String × String)) := inferInstance

instance : DecidableEq (Finset String × List (String × String × String) × String) :=
  inferInstance

instance : DecidableEq (Option (Finset String × List (String × String × String) × String)) :=
  inferInstance

instance : DecidableEq (Option (Finset String × List (String × String × String))) :=
  inferInstance

/-- The transition-collection loop run once per phase of a step: for every
active state (in list order), every outgoing transition labelled exactly
`sym` contributes its target to `next_states` and the fired triple to
`active_transitions`.  `none` models the `KeyError` of
`self.fsm.states[state_name]`. -/
def collectBySymbol (m : FSM) (sym : String) (cur : List String) :
    Option (List String × List (String × String × String)) :=
  cur.foldlM (fun acc n =>
    match m.states.lookup n with
    | none => none
    | some st =>
      let matched := st.out_transitions.filter (fun t => t.symbol == sym)
      some (acc.1 ++ matched.map (·.to_state),
            acc.2 ++ matched.map (fun t => (t.from_state, t.to_state, sym))))
    ([], [])

/-- The final-frame text entries: state name, suffixed when accepting. -/
def finalInfo (m : FSM) (cur : List String) : Option (List String) :=
  cur.foldlM (fun acc n =>
    match m.states.lookup n with
    | none => none
    | some st =>
      some (acc ++ [if st.is_final then n ++ " (конечное)" else n])) []

/-- The body of `for step, symbol in enumerate(input_sequence):`
(export_utils.py lines 336-385): the pre-step epsilon phase (emitting a frame
and merging targets only when epsilon transitions fired), then the symbol
phase (either the fired-transitions frame followed by the epsilon-closure
frame, or the single dead-end frame leaving the active set unchanged). -/
def simStep (m : FSM) (step : Nat) (symbol : String) (cur : List String) :
    Option (List Frame × List String) := do
  let (nextE, firedE) ← collectBySymbol m "epsilon" cur
  let (frames1, cur1) :=
    if firedE ≠ [] then
      ([(cur, firedE, "Шаг " ++ toString step ++ ".5: Epsilon-переходы")],
       (cur ++ nextE).dedup)
    else ([], cur)
  let (nextS, firedS) ← collectBySymbol m symbol cur1
  let symbol_display := if symbol = "epsilon" then "ε" else symbol
  if firedS ≠ [] then do
    let closure ← getEpsilonClosure m nextS
    pure (frames1 ++
      [(cur1, firedS, "Шаг " ++ toString (step + 1) ++ ": Вход '" ++ symbol_display ++ "'"),
       (closure, [], "Шаг " ++ toString (step + 1) ++ ": Новые состояния после epsilon-замыкания")],
      closure)
  else
    pure (frames1 ++
      [(cur1, [], "Шаг " ++ toString (step + 1) ++ ": Нет перехода по '" ++ symbol_display ++ "'")],
      cur1)

/-- The whole `for step, symbol in enumerate(input_sequence):` loop,
accumulating the frames of each step. -/
def simLoop (m : FSM) (input : List String) (step : Nat) (cur : List String) :
    Option (List Frame × List String) :=
  match input with
  | [] => some ([], cur)
  | symbol :: rest => do
    let (fs, cur1) ← simStep m step symbol cur
    let (fs2, cur2) ← simLoop m rest (step + 1) cur1
    pure (fs ++ fs2, cur2)

/-- `create_animation_frames(input_sequence)` (export_utils.py lines
315-400): empty result without a start state (or without states), the
initial frame, the initial epsilon-closure frame when the closure differs as
a set, the per-symbol loop, and the final summary frame guarded by
`if final_info:`. -/
def create_animation_frames (m : FSM) (input : List String) : Option (List Frame) :=
  if m.states = [] ∨ m.start_state = none then some []
  else
    match m.start_state with
    | none => some []
    | some startName => do
      let cur0 := [startName]
      let frames0 : List Frame := [(cur0, [], "Начальное состояние")]
      let closed ← getEpsilonClosure m cur0
      let (frames1, cur1) :=
        if closed.toFinset ≠ cur0.toFinset then
          (frames0 ++ [(closed, [], "Epsilon-замыкание начального состояния")], closed)
        else (frames0, cur0)
      let (framesL, curF) ← simLoop m input 0 cur1
      let fi ← finalInfo m curF
      if fi ≠ [] then
        pure (frames1 ++ framesL ++ [(curF, [], "Результат: " ++ String.intercalate ", " fi)])
      else
        pure (frames1 ++ framesL)

/-! ### Reachability (`FiniteStateMachine._get_reachable_states`, fsm.py
lines 226-246) -/

/-- Total number of stored outgoing transitions; bounds the number of stack
pushes of a single reachability iteration. -/
def totalTrans (m : FSM) : Nat :=
  (m.states.flatMap (fun p => p.2.out_transitions)).length

/-- `while stack:` of `_get_reachable_states` with explicit fuel (head of the
list = top of the Python stack; the `for` loop appends in transition order,
so the pushed block is reversed).  The membership filter runs against
`reachable` with `current` already added, exactly as in the source. -/
def reachLoop (m : FSM) : Nat → Finset String → List String → Option (Finset String)
  | 0, _, _ => none
  | _ + 1, reachable, [] => some reachable
  | fuel + 1, reachable, current :: rest =>
    if current ∈ reachable then reachLoop m fuel reachable rest
    else
      match m.states.lookup current with
      | none => none
      | some st =>
        let reach2 := insert current reachable
        reachLoop m fuel reach2
          (((st.out_transitions.filter (fun t => t.to_state ∉ reach2)).map (·.to_state)).reverse
            ++ rest)

/-- Fuel sufficient for the whole traversal. -/
def reachFuel (m : FSM) : Nat :=
  ((stateNames m).toFinset.card) * (totalTrans m + 1) + 2

/-- `_get_reachable_states()`. -/
def get_reachable_states (m : FSM) : Option (Finset String) :=
  match m.start_state with
  | none => some ∅
  | some startName => reachLoop m (reachFuel m) ∅ [startName]

/-! ### Validation (`FiniteStateMachine.validate`, fsm.py lines 190-224) -/

/-- The `errors` list of `validate` (the error class of messages). -/
def validateErrors (m : FSM) : List String :=
  (if m.states = [] then ["Автомат не содержит состояний"] else []) ++
  (if m.start_state = none then ["Не указано начальное состояние"] else [])

/-- The per-state warnings (isolated / dead-end non-final), in state order. -/
def validateStateWarnings (m : FSM) : List String :=
  m.states.flatMap (fun p =>
    if p.2.in_transitions = [] ∧ p.2.out_transitions = [] then
      ["Состояние '" ++ p.1 ++ "' изолировано (нет переходов)"]
    else if p.2.out_transitions = [] ∧ p.2.is_final = false then
      ["Состояние '" ++ p.1 ++ "' не имеет исходящих переходов и не является конечным"]
    else [])

/-- The unreachable-state warnings.  Python iterates the set difference
`set(self.states.keys()) - reachable` in implementation-defined order; the
embedding fixes insertion order.  `none` models a `KeyError` escaping
`_get_reachable_states`. -/
def validateUnreachableWarnings (m : FSM) : Option (List String) :=
  match m.start_state with
  | none => some []
  | some _ =>
    (get_reachable_states m).map (fun reachable =>
      ((stateNames m).filter (fun n => decide (n ∉ reachable))).map
        (fun n => "Состояние '" ++ n ++ "' недостижимо из начального состояния"))

/-- `validate()`: `(len(errors) == 0, errors + warnings)`. -/
def validate (m : FSM) : Option (Bool × List String) :=
  (validateUnreachableWarnings m).map (fun uw =>
    ((validateErrors m).isEmpty, validateErrors m ++ (validateStateWarnings m ++ uw)))

/-! ### Adjacency matrix (`FiniteStateMachine.get_adjacency_matrix`, fsm.py
lines 248-268) -/

/-- `get_adjacency_matrix()`: an N x N zero matrix in which every stored
outgoing transition sets entry `[i][state_names.index(to_state)]` to 1.  The
guard models `list.index` raising `ValueError` for a target that is not a
state; iterating the dict pairs directly coincides with Python's iteration of
`state_names` followed by `self.states[from_name]`. -/
def get_adjacency_matrix (m : FSM) : Option (List (List Nat) × List String) := do
  let state_names := stateNames m
  let n := state_names.length
  let matrix0 := List.replicate n (List.replicate n 0)
  let M ← m.states.enum.foldlM (fun mat p =>
    p.2.2.out_transitions.foldlM (fun mat t =>
      if t.to_state ∈ state_names then
        some (mat.set p.1 ((mat.getD p.1 []).set (state_names.indexOf t.to_state) 1))
      else none) mat) matrix0
  pure (M, state_names)

/-! ### Concrete machines used by the scenarios -/

instance {ε α : Type} [DecidableEq ε] [DecidableEq α] : DecidableEq (Except ε α) :=
  fun x y =>
    match x, y with
    | .ok a, .ok b =>
      if h : a = b then isTrue (by rw [h]) else isFalse (fun hc => h (Except.ok.inj hc))
    | .error a, .error b =>
      if h : a = b then isTrue (by rw [h]) else isFalse (fun hc => h (Except.error.inj hc))
    | .ok _, .error _ => isFalse (fun hc => Except.noConfusion hc)
    | .error _, .ok _ => isFalse (fun hc => Except.noConfusion hc)

/-- `add_transition` repackaged as `Except` for machine-building chains that
are known not to mutate partially (all its uses below succeed). -/
def addTransitionE (m : FSM) (from_name to_name symbol : String) : Except PyErr FSM :=
  match m.add_transition from_name to_name symbol with
  | (m1, none) => .ok m1
  | (_, some e) => .error e

/-- The automaton of spec Scenario A, built by the exact `add_state` /
`add_transition` calls of `main.py` menu item 6. -/
def buildScenarioA : Except PyErr FSM := do
  let m ← FSM.empty.add_state "q0" true false
  let m ← m.add_state "q1" false false
  let m ← m.add_state "q2" false true
  let m ← addTransitionE m "q0" "q1" "a"
  let m ← addTransitionE m "q0" "q2" "epsilon"
  let m ← addTransitionE m "q1" "q2" "b"
  let m ← addTransitionE m "q2" "q0" "a"
  let m ← addTransitionE m "q2" "q1" "z"
  pure m

/-- Scenario A machine (the `Except` wrapper is discharged by the theorems
stating `buildScenarioA = .ok scenarioA`). -/
def scenarioA : FSM := buildScenarioA.toOption.getD FSM.empty

/-- Scenario D machine: a single isolated state, no start state. -/
def scenarioD : FSM := (FSM.empty.add_state "s1" false false).toOption.getD FSM.empty

/-- The machine of the C2 failing input: the single state `q0`. -/
def fsmQ0 : FSM := (FSM.empty.add_state "q0" true false).toOption.getD FSM.empty

/-- The machine of the C7 counterexample: the flagged state `m` is not the
tracked start reference (the tracked reference is cleared, as after the GUI's
`remove_state` of a previously overwritten start state). -/
def fsmBad : FSM :=
  ⟨[("m", ⟨"m", true, false, [], []⟩), ("n", ⟨"n", false, false, [], []⟩)], ∅, none⟩

/-- Result of `set_start_state("n")` on `fsmBad`. -/
def fsmBad2 : FSM := (fsmBad.set_start_state "n").toOption.getD fsmBad

/-- At most one stored state has its `is_start` flag set. -/
def atMostOneStart (m : FSM) : Prop :=
  ∀ p ∈ m.states, ∀ q ∈ m.states, p.2.is_start = true → q.2.is_start = true → p = q

instance (m : FSM) : Decidable (atMostOneStart m) := by
  unfold atMostOneStart; infer_instance

/-- Every state whose `is_start` flag is set is the tracked start reference
(the invariant `set_start_state` actually preserves). -/
def singleStartInv (m : FSM) : Prop :=
  ∀ p ∈ m.states, p.2.is_start = true → m.start_state = some p.1

instance (m : FSM) : Decidable (singleStartInv m) := by
  unfold singleStartInv; infer_instance

/-- Every non-epsilon symbol stored on a transition is in the alphabet (true
of machines whose transitions were all added by an error-free
`add_transition`). -/
def alphabetComplete (m : FSM) : Prop :=
  ∀ p ∈ m.states, ∀ t ∈ p.2.out_transitions, t.symbol ≠ "epsilon" → t.symbol ∈ m.alphabet

instance (m : FSM) : Decidable (alphabetComplete m) := by
  unfold alphabetComplete; infer_instance

/-! ### Claim theorems -/

/-- C1: on the Scenario A automaton (q0 start, q1, q2 final; q0→q1 on a,
q0→q2 on epsilon, q1→q2 on b, q2→q0 on a, q2→q1 on z), `simulate(["a","b"])`
produces a trace whose first frame has active set `{q0}`, whose second frame
(after the initial epsilon closure) has active set `{q0, q2}`, and whose
active set after both symbols are consumed is exactly `{q2}` (both in the
last per-symbol frame and in the final summary frame). -/
theorem scenarioA_simulate_ab :
    buildScenarioA = Except.ok scenarioA ∧
    (create_animation_frames scenarioA ["a", "b"]).map (fun F =>
      ((F.get? 0).map (fun f => f.1.toFinset),
       (F.get? 1).map (fun f => f.1.toFinset),
       (F.get? 7).map (fun f => f.1.toFinset),
       (F.getLast?).map (fun f => f.1.toFinset))) =
      some (some {"q0"}, some {"q0", "q2"}, some {"q2"}, some {"q2"}) := by decide

/-- C2: `add_transition` with an absent target endpoint does not signal the
documented error and does not leave the store unmodified: on the machine with
the single state `q0`, `add_transition("q0", "q1", "a")` raises the bare
`KeyError` of the dict access only after the transition has already been
appended to `q0`'s outgoing list (a partial mutation); the alphabet update is
skipped. -/
theorem add_transition_missing_target_partial_mutation :
    FSM.empty.add_state "q0" true false = Except.ok fsmQ0 ∧
    (fsmQ0.add_transition "q0" "q1" "a").2 = some (PyErr.keyError "q1") ∧
    (fsmQ0.add_transition "q0" "q1" "a").1 ≠ fsmQ0 ∧
    ((fsmQ0.add_transition "q0" "q1" "a").1.states.lookup "q0").map State.out_transitions =
      some [⟨"q0", "q1", "a"⟩] ∧
    (fsmQ0.states.lookup "q0").map State.out_transitions = some [] ∧
    (fsmQ0.add_transition "q0" "q1" "a").1.alphabet = fsmQ0.alphabet := by decide

/-- C3 counterexample: on Scenario A, after consuming `'a'` the active set is
`{q0, q1, q2}` (the initial epsilon closure `{q0, q2}` fires both `q0→q1` and
`q2→q0` on `'a'`, and the following epsilon closure re-adds `q2`), not `{q1}`
as claimed; indeed no frame of `simulate(["a","x"])` ever has active set
`{q1}`. -/
theorem scenarioA_simulate_ax_counterexample :
    (create_animation_frames scenarioA ["a", "x"]).map (fun F =>
      F.map (fun f => f.1.toFinset)) =
      some [{"q0"}, {"q0", "q2"}, {"q0", "q2"}, {"q0", "q2"},
            {"q1", "q0", "q2"}, {"q1", "q0", "q2"}, {"q1", "q0", "q2"}, {"q1", "q0", "q2"}] ∧
    ({"q0"} : Finset String) ≠ {"q1"} ∧
    ({"q0", "q2"} : Finset String) ≠ {"q1"} ∧
    ({"q1", "q0", "q2"} : Finset String) ≠ {"q1"} := by
  decide

/-- C3 amended: on Scenario A, `simulate(["a","x"])` has active set
`{q0, q1, q2}` after consuming `'a'`; `'x'` fires no transition, so the step
emits the "no transition" frame with empty fired-transition list and the
active set stays `{q0, q1, q2}` to the end of the trace. -/
theorem scenarioA_simulate_ax_amended :
    buildScenarioA = Except.ok scenarioA ∧
    (create_animation_frames scenarioA ["a", "x"]).map (fun F =>
      ((F.get? 4).map (fun f => f.1.toFinset),
       (F.get? 6).map (fun f => (f.1.toFinset, f.2.1, f.2.2)),
       (F.getLast?).map (fun f => f.1.toFinset))) =
      some (some {"q1", "q0", "q2"},
            some ({"q1", "q0", "q2"}, [], "Шаг 2: Нет перехода по 'x'"),
            some {"q1", "q0", "q2"}) := by decide

/-- C4: an automaton without a start state yields the empty frame sequence
for every input, and no exception (`some []`, never `none`). -/
theorem simulate_no_start_empty (m : FSM) (input : List String)
    (h : m.start_state = none) : create_animation_frames m input = some [] := by
  unfold create_animation_frames
  rw [h]
  simp

/-- Witness for C4 at a concrete machine and input. -/
theorem simulate_no_start_empty_witness :
    FSM.empty.start_state = none ∧ create_animation_frames FSM.empty ["a", "b"] = some [] :=
  ⟨rfl, simulate_no_start_empty FSM.empty ["a", "b"] rfl⟩

/-- C6 counterexample: the input symbol `"epsilon"` is never a member of the
alphabet, yet on Scenario A `simulate(["epsilon"])` does not emit the
dead-end frame for it: the symbol phase fires the transition `q0→q2` labelled
`epsilon` and shrinks the active set from `{q0, q2}` to `{q2}`. -/
theorem epsilon_input_not_dead_end_counterexample :
    "epsilon" ∉ scenarioA.alphabet ∧
    (create_animation_frames scenarioA ["epsilon"]).map (fun F =>
      (F.all (fun f => decide (f.2.2 ≠ "Шаг 1: Нет перехода по 'ε'")),
       (F.get? 3).map (fun f => (f.1.toFinset, f.2.1)),
       (F.getLast?).map (fun f => f.1.toFinset))) =
      some (true,
            some ({"q0", "q2"}, [("q0", "q2", "epsilon")]),
            some {"q2"}) ∧
    ({"q2"} : Finset String) ≠ {"q0", "q2"} := by decide

/-- C7 counterexample: on a store in which the single flagged state `m` is
not the tracked start reference (the reference is `None`), `set_start_state("n")`
has nothing to clear and flags `n`, so a store with at most one `is_start`
flag set ends up with two. -/
theorem set_start_state_single_start_counterexample :
    atMostOneStart fsmBad ∧
    fsmBad.set_start_state "n" = Except.ok fsmBad2 ∧
    ¬ atMostOneStart fsmBad2 := by decide

/-- C5: the epsilon-closure operation is idempotent on any set of present
state names of a referentially intact machine: the first application
succeeds, and re-applying it to the result returns the result itself. -/
theorem epsilon_closure_idempotent (m : FSM) (hwf : wfTargets m) (S : List String)
    (hS : ∀ x ∈ S, x ∈ stateNames m) :
    ∃ c, getEpsilonClosure m S = some c ∧ getEpsilonClosure m c = some c := by
  obtain ⟨c, hc, _, hck, hcl, hcn⟩ := getEpsilonClosure_spec m hwf S hS
  exact ⟨c, hc, getEpsilonClosure_stable m c hcl hck hcn⟩

/-- Witness for C5 on Scenario A with `S = ["q0"]`. -/
theorem epsilon_closure_idempotent_witness :
    wfTargets scenarioA ∧ (∀ x ∈ ["q0"], x ∈ stateNames scenarioA) ∧
    ∃ c, getEpsilonClosure scenarioA ["q0"] = some c ∧
      getEpsilonClosure scenarioA c = some c :=
  ⟨by decide, by decide,
   epsilon_closure_idempotent scenarioA (by decide) ["q0"] (by decide)⟩

/-! ### Characterization of the per-phase transition collection -/

/-- The transitions a collection phase gathers: for each active state in list
order, its outgoing transitions labelled exactly `sym`, in stored order. -/
def matchedOf (m : FSM) (sym : String) (cur : List String) : List Transition :=
  cur.flatMap (fun n => (outOf m n).filter (fun t => t.symbol == sym))

theorem mem_outOf {m : FSM} {x : String} {t : Transition} (ht : t ∈ outOf m x) :
    ∃ st, m.states.lookup x = some st ∧ t ∈ st.out_transitions := by
  unfold outOf at ht
  match h : m.states.lookup x with
  | none => rw [h] at ht; simp at ht
  | some st => rw [h] at ht; exact ⟨st, rfl, by simpa using ht⟩

theorem mem_matchedOf {m : FSM} {sym : String} {cur : List String} {t : Transition} :
    t ∈ matchedOf m sym cur ↔ ∃ x ∈ cur, t ∈ outOf m x ∧ t.symbol = sym := by
  simp [matchedOf, List.mem_flatMap, List.mem_filter]

theorem matchedOf_target_mem {m : FSM} (hwf : wfTargets m) {sym : String}
    {cur : List String} {t : Transition} (ht : t ∈ matchedOf m sym cur) :
    t.to_state ∈ stateNames m := by
  obtain ⟨x, _, hout, _⟩ := mem_matchedOf.1 ht
  obtain ⟨st, hst, hmem⟩ := mem_outOf hout
  exact wfTargets_mem hwf hst hmem

theorem collectBySymbol_go (m : FSM) (sym : String) :
    ∀ (cur : List String) (acc : List String × List (String × String × String)),
      (∀ x ∈ cur, x ∈ stateNames m) →
      List.foldlM (fun acc n =>
        match m.states.lookup n with
        | none => none
        | some st =>
          let matched := st.out_transitions.filter (fun t => t.symbol == sym)
          some (acc.1 ++ matched.map (·.to_state),
                acc.2 ++ matched.map (fun t => (t.from_state, t.to_state, sym))))
        acc cur =
      some (acc.1 ++ (matchedOf m sym cur).map (·.to_state),
            acc.2 ++ (matchedOf m sym cur).map (fun t => (t.from_state, t.to_state, sym))) := by
  intro cur
  induction cur with
  | nil => intro acc _; simp [matchedOf, List.foldlM]
  | cons n rest ih =>
    intro acc hcur
    obtain ⟨st, hst⟩ := lookup_isSome_of_mem (hcur n (by simp))
    rw [List.foldlM_cons, hst]
    simp only [Option.bind_eq_bind, Option.some_bind]
    rw [ih _ (fun x hx => hcur x (List.mem_cons_of_mem _ hx))]
    have hout : outOf m n = st.out_transitions := outOf_eq_of_lookup hst
    simp [matchedOf, hout, List.flatMap_cons, List.append_assoc]

/-- `collectBySymbol` never raises on present states and gathers exactly
`matchedOf`. -/
theorem collectBySymbol_eq (m : FSM) (sym : String) (cur : List String)
    (hcur : ∀ x ∈ cur, x ∈ stateNames m) :
    collectBySymbol m sym cur =
      some ((matchedOf m sym cur).map (·.to_state),
            (matchedOf m sym cur).map (fun t => (t.from_state, t.to_state, sym))) := by
  unfold collectBySymbol
  simpa using collectBySymbol_go m sym cur ([], []) hcur

theorem finalInfo_go (m : FSM) :
    ∀ (cur : List String) (acc : List String),
      (∀ x ∈ cur, x ∈ stateNames m) →
      ∃ fi, List.foldlM (fun acc n =>
          match m.states.lookup n with
          | none => none
          | some st => some (acc ++ [if st.is_final then n ++ " (конечное)" else n]))
          acc cur = some fi ∧ fi.length = acc.length + cur.length := by
  intro cur
  induction cur with
  | nil => intro acc _; exact ⟨acc, by simp [List.foldlM], by simp⟩
  | cons n rest ih =>
    intro acc hcur
    obtain ⟨st, hst⟩ := lookup_isSome_of_mem (hcur n (by simp))
    obtain ⟨fi, hfi, hlen⟩ := ih (acc ++ [if st.is_final then n ++ " (конечное)" else n])
      (fun x hx => hcur x (List.mem_cons_of_mem _ hx))
    refine ⟨fi, ?_, by simp at hlen ⊢; omega⟩
    rw [List.foldlM_cons, hst]
    simpa using hfi

/-- `finalInfo` never raises on present states and yields one entry per
active state. -/
theorem finalInfo_spec (m : FSM) (cur : List String)
    (hcur : ∀ x ∈ cur, x ∈ stateNames m) :
    ∃ fi, finalInfo m cur = some fi ∧ fi.length = cur.length := by
  obtain ⟨fi, hfi, hlen⟩ := finalInfo_go m cur [] hcur
  exact ⟨fi, by unfold finalInfo; simpa using hfi, by simpa using hlen⟩

/-- One simulation step never raises on a non-empty present active set of a
referentially intact machine, keeps the active set non-empty and present, and
every frame it emits has a non-empty active set. -/
theorem simStep_spec (m : FSM) (hwf : wfTargets m) (step : Nat) (sym : String)
    (cur : List String) (hne : cur ≠ []) (hcur : ∀ x ∈ cur, x ∈ stateNames m) :
    ∃ F cur2, simStep m step sym cur = some (F, cur2) ∧ cur2 ≠ [] ∧
      (∀ x ∈ cur2, x ∈ stateNames m) ∧ (∀ fr ∈ F, fr.1 ≠ []) := by
  have hE := collectBySymbol_eq m "epsilon" cur hcur
  have hcur1 : ∀ x ∈ (cur ++ (matchedOf m "epsilon" cur).map (·.to_state)).dedup,
      x ∈ stateNames m := by
    intro x hx
    rcases List.mem_append.1 (List.mem_dedup.1 hx) with h1 | h1
    · exact hcur x h1
    · obtain ⟨t, ht, rfl⟩ := List.mem_map.1 h1
      exact matchedOf_target_mem hwf ht
  have hne1 : (cur ++ (matchedOf m "epsilon" cur).map (·.to_state)).dedup ≠ [] := by
    obtain ⟨x, hx⟩ := List.exists_mem_of_ne_nil cur hne
    exact List.ne_nil_of_mem (List.mem_dedup.2 (List.mem_append_left _ hx))
  -- abbreviations for the two possible epsilon-phase results
  have main : ∀ (frames1 : List Frame) (cur1 : List String), cur1 ≠ [] →
      (∀ x ∈ cur1, x ∈ stateNames m) → (∀ fr ∈ frames1, fr.1 ≠ []) →
      ∃ F cur2,
        ((collectBySymbol m sym cur1).bind (fun p =>
          if p.2 ≠ [] then
            (getEpsilonClosure m p.1).bind (fun closure =>
              some (frames1 ++
                [(cur1, p.2, "Шаг " ++ toString (step + 1) ++ ": Вход '" ++
                    (if sym = "epsilon" then "ε" else sym) ++ "'"),
                 (closure, [], "Шаг " ++ toString (step + 1) ++
                    ": Новые состояния после epsilon-замыкания")], closure))
          else
            some (frames1 ++
              [(cur1, [], "Шаг " ++ toString (step + 1) ++ ": Нет перехода по '" ++
                  (if sym = "epsilon" then "ε" else sym) ++ "'")], cur1))) =
          some (F, cur2) ∧
        cur2 ≠ [] ∧ (∀ x ∈ cur2, x ∈ stateNames m) ∧ (∀ fr ∈ F, fr.1 ≠ []) := by
    intro frames1 cur1 hne1' hcur1' hfr1
    rw [collectBySymbol_eq m sym cur1 hcur1']
    simp only [Option.bind_eq_bind, Option.some_bind]
    by_cases hMS : matchedOf m sym cur1 = []
    · rw [if_neg (by simp [hMS])]
      refine ⟨_, cur1, rfl, hne1', hcur1', ?_⟩
      intro fr hfr
      rcases List.mem_append.1 hfr with h1 | h1
      · exact hfr1 fr h1
      · rw [List.mem_singleton.1 h1]; exact hne1'
    · rw [if_pos (by simp [hMS])]
      have hnext : ∀ x ∈ (matchedOf m sym cur1).map (·.to_state), x ∈ stateNames m := by
        intro x hx
        obtain ⟨t, ht, rfl⟩ := List.mem_map.1 hx
        exact matchedOf_target_mem hwf ht
      obtain ⟨r, hr, hsub, hrk, _, _⟩ :=
        getEpsilonClosure_spec m hwf ((matchedOf m sym cur1).map (·.to_state)) hnext
      have hrne : r ≠ [] := by
        obtain ⟨t, ht⟩ := List.exists_mem_of_ne_nil _ hMS
        exact List.ne_nil_of_mem (hsub _ (List.mem_map_of_mem _ ht))
      rw [hr]
      simp only [Option.some_bind]
      refine ⟨_, r, rfl, hrne, hrk, ?_⟩
      intro fr hfr
      rcases List.mem_append.1 hfr with h1 | h1
      · exact hfr1 fr h1
      · rcases List.mem_cons.1 h1 with h2 | h2
        · rw [h2]; exact hne1'
        · rw [List.mem_singleton.1 h2]; exact hrne
  unfold simStep
  rw [hE]
  simp only [Option.bind_eq_bind, Option.some_bind]
  by_cases hME : matchedOf m "epsilon" cur = []
  · rw [if_neg (by simp [hME])]
    simpa [hME] using main [] cur hne hcur (by simp)
  · rw [if_pos (by simp [hME])]
    exact main _ _ hne1 hcur1
      (by
        intro fr hfr
        rw [List.mem_singleton.1 hfr]
        exact hne)

/-- The per-symbol loop preserves the step invariant and only emits frames
with non-empty active sets. -/
theorem simLoop_spec (m : FSM) (hwf : wfTargets m) (input : List String) :
    ∀ (step : Nat) (cur : List String), cur ≠ [] → (∀ x ∈ cur, x ∈ stateNames m) →
    ∃ F cur2, simLoop m input step cur = some (F, cur2) ∧ cur2 ≠ [] ∧
      (∀ x ∈ cur2, x ∈ stateNames m) ∧ (∀ fr ∈ F, fr.1 ≠ []) := by
  induction input with
  | nil =>
    intro step cur hne hcur
    exact ⟨[], cur, rfl, hne, hcur, by simp⟩
  | cons sym rest ih =>
    intro step cur hne hcur
    obtain ⟨F1, cur1, h1, hne1, hcur1, hfr1⟩ := simStep_spec m hwf step sym cur hne hcur
    obtain ⟨F2, cur2, h2, hne2, hcur2, hfr2⟩ := ih (step + 1) cur1 hne1 hcur1
    refine ⟨F1 ++ F2, cur2, ?_, hne2, hcur2, ?_⟩
    · rw [simLoop, h1]
      simp only [Option.bind_eq_bind, Option.some_bind]
      rw [h2]
      rfl
    · intro fr hfr
      rcases List.mem_append.1 hfr with h | h
      · exact hfr1 fr h
      · exact hfr2 fr h

/-- C10: for every referentially intact automaton whose start state is set
(and present), and every input sequence, the simulation succeeds, every
produced frame has a non-empty active-state set, and the trace ends with the
final summary frame (the `if final_info:` guard never suppresses it). -/
theorem simulate_frames_nonempty_final (m : FSM) (hwf : wfTargets m)
    (input : List String) (s : String) (hstart : m.start_state = some s)
    (hs : s ∈ stateNames m) :
    ∃ F c fi, create_animation_frames m input = some F ∧
      (∀ fr ∈ F, fr.1 ≠ []) ∧ c ≠ [] ∧ finalInfo m c = some fi ∧ fi ≠ [] ∧
      F.getLast? = some (c, [], "Результат: " ++ String.intercalate ", " fi) := by
  have hstates : m.states ≠ [] := by
    intro h
    rw [stateNames, h] at hs
    simp at hs
  obtain ⟨c0, hc0, hsup0, hc0k, _, _⟩ := getEpsilonClosure_spec m hwf [s]
    (by intro x hx; rw [List.mem_singleton.1 hx]; exact hs)
  have hc0ne : c0 ≠ [] := List.ne_nil_of_mem (hsup0 s (by simp))
  have main : ∀ (frames1 : List Frame) (cur1 : List String), cur1 ≠ [] →
      (∀ x ∈ cur1, x ∈ stateNames m) → (∀ fr ∈ frames1, fr.1 ≠ []) →
      ∃ F c fi,
        ((simLoop m input 0 cur1).bind (fun q =>
          (finalInfo m q.2).bind (fun fi =>
            if fi ≠ [] then
              some (frames1 ++ q.1 ++ [(q.2, [], "Результат: " ++ String.intercalate ", " fi)])
            else some (frames1 ++ q.1)))) = some F ∧
        (∀ fr ∈ F, fr.1 ≠ []) ∧ c ≠ [] ∧ finalInfo m c = some fi ∧ fi ≠ [] ∧
        F.getLast? = some (c, [], "Результат: " ++ String.intercalate ", " fi) := by
    intro frames1 cur1 hne1 hcur1 hfr1
    obtain ⟨FL, curF, hFL, hneF, hcurF, hfrL⟩ := simLoop_spec m hwf input 0 cur1 hne1 hcur1
    obtain ⟨fi, hfi, hlen⟩ := finalInfo_spec m curF hcurF
    have hfine : fi ≠ [] := by
      intro h
      rw [h] at hlen
      exact hneF (List.eq_nil_of_length_eq_zero hlen.symm)
    rw [hFL]
    simp only [Option.bind_eq_bind, Option.some_bind]
    rw [hfi]
    simp only [Option.some_bind]
    rw [if_pos hfine]
    refine ⟨_, curF, fi, rfl, ?_, hneF, hfi, hfine, ?_⟩
    · intro fr hfr
      rcases List.mem_append.1 hfr with h | h
      · rcases List.mem_append.1 h with h1 | h1
        · exact hfr1 fr h1
        · exact hfrL fr h1
      · rw [List.mem_singleton.1 h]
        exact hneF
    · rw [List.append_assoc, ← List.append_assoc]
      exact List.getLast?_concat _
  unfold create_animation_frames
  rw [if_neg (by simp [hstart, hstates]), hstart]
  simp only
  rw [hc0]
  simp only [Option.bind_eq_bind, Option.some_bind]
  by_cases hdiff : c0.toFinset ≠ ([s] : List String).toFinset
  · rw [if_pos hdiff]
    exact main _ c0 hc0ne hc0k
      (by
        intro fr hfr
        rcases List.mem_cons.1 hfr with h | h
        · rw [h]; simp
        · rw [List.mem_singleton.1 h]; exact hc0ne)
  · rw [if_neg hdiff]
    exact main _ [s] (by simp) (by intro x hx; rw [List.mem_singleton.1 hx]; exact hs)
      (by
        intro fr hfr
        rw [List.mem_singleton.1 hfr]
        simp)

/-- Witness for C10 on Scenario A with input `["a", "b"]`. -/
theorem simulate_frames_nonempty_final_witness :
    wfTargets scenarioA ∧ scenarioA.start_state = some "q0" ∧
    "q0" ∈ stateNames scenarioA ∧
    ∃ F c fi, create_animation_frames scenarioA ["a", "b"] = some F ∧
      (∀ fr ∈ F, fr.1 ≠ []) ∧ c ≠ [] ∧ finalInfo scenarioA c = some fi ∧ fi ≠ [] ∧
      F.getLast? = some (c, [], "Результат: " ++ String.intercalate ", " fi) :=
  ⟨by decide, by decide, by decide,
   simulate_frames_nonempty_final scenarioA (by decide) ["a", "b"] "q0" (by decide) (by decide)⟩

/-- C6 amended: consider a machine whose stored non-epsilon transition labels
all lie in the alphabet, and a step whose symbol is neither in the alphabet
nor the reserved label `"epsilon"`.  From any present, epsilon-closed active
set the step's symbol phase fires nothing: the step emits the single
"no transition" dead-end frame (preceded at most by the pre-step epsilon
frame, which cannot change the set), the active set is unchanged as a set,
and simulation continues with that same set. -/
theorem unknown_symbol_dead_end (m : FSM) (hcomp : alphabetComplete m) (step : Nat)
    (sym : String) (hsym : sym ∉ m.alphabet) (heps : sym ≠ "epsilon")
    (cur : List String) (hcur : ∀ x ∈ cur, x ∈ stateNames m) (hcl : epsClosedL m cur) :
    ∃ F0 cur1, simStep m step sym cur = some (F0 ++
        [(cur1, [], "Шаг " ++ toString (step + 1) ++ ": Нет перехода по '" ++ sym ++ "'")],
        cur1) ∧
      cur1.toFinset = cur.toFinset ∧
      (F0 = [] ∨ ∃ fired, F0 = [(cur, fired, "Шаг " ++ toString step ++ ".5: Epsilon-переходы")]) := by
  have hMS : ∀ (c : List String), (∀ x ∈ c, x ∈ stateNames m) → matchedOf m sym c = [] := by
    intro c hc
    by_contra h
    obtain ⟨t, ht⟩ := List.exists_mem_of_ne_nil _ h
    obtain ⟨x, _, hout, hsymEq⟩ := mem_matchedOf.1 ht
    obtain ⟨st, hst, hmem⟩ := mem_outOf hout
    exact hsym (hsymEq ▸ hcomp _ (mem_of_lookup_eq_some hst) t hmem (hsymEq ▸ heps))
  have hdisp : (if sym = "epsilon" then "ε" else sym) = sym := if_neg heps
  unfold simStep
  rw [collectBySymbol_eq m "epsilon" cur hcur]
  simp only [Option.bind_eq_bind, Option.some_bind]
  by_cases hME : matchedOf m "epsilon" cur = []
  · rw [if_neg (by simp [hME])]
    rw [collectBySymbol_eq m sym cur hcur, hMS cur hcur]
    simp only [List.map_nil, ne_eq, not_true_eq_false, if_false, Option.bind_eq_bind,
      Option.some_bind, List.nil_append]
    refine ⟨[], cur, ?_, rfl, Or.inl rfl⟩
    rw [hdisp]
    simp
  · rw [if_pos (by simp [hME])]
    have hsubE : ∀ y ∈ (matchedOf m "epsilon" cur).map (·.to_state), y ∈ cur := by
      intro y hy
      obtain ⟨t, ht, rfl⟩ := List.mem_map.1 hy
      obtain ⟨x, hx, hout, hsymEq⟩ := mem_matchedOf.1 ht
      exact hcl x hx t hout hsymEq
    have hfs : ((cur ++ (matchedOf m "epsilon" cur).map (·.to_state)).dedup).toFinset =
        cur.toFinset := by
      have hded : ∀ (l : List String), l.dedup.toFinset = l.toFinset := by
        intro l
        ext a
        simp [List.mem_toFinset, List.mem_dedup]
      rw [hded, List.toFinset_append]
      exact Finset.union_eq_left.2 (fun y hy => by
        obtain hy1 := List.mem_toFinset.1 hy
        exact List.mem_toFinset.2 (hsubE y hy1))
    have hcur1 : ∀ x ∈ (cur ++ (matchedOf m "epsilon" cur).map (·.to_state)).dedup,
        x ∈ stateNames m := by
      intro x hx
      have : x ∈ cur := by
        have := List.mem_toFinset.2 hx
        rw [hfs] at this
        exact List.mem_toFinset.1 this
      exact hcur x this
    rw [collectBySymbol_eq m sym _ hcur1, hMS _ hcur1]
    simp only [List.map_nil, ne_eq, not_true_eq_false, if_false, Option.bind_eq_bind,
      Option.some_bind]
    rw [hdisp]
    exact ⟨[(cur, (matchedOf m "epsilon" cur).map (fun t => (t.from_state, t.to_state, "epsilon")),
             "Шаг " ++ toString step ++ ".5: Epsilon-переходы")],
           (cur ++ (matchedOf m "epsilon" cur).map (·.to_state)).dedup,
           rfl, hfs, Or.inr ⟨_, rfl⟩⟩

/-- Witness for the amended C6 on Scenario A with symbol `"x"` from the
epsilon-closed active set `["q1"]`. -/
theorem unknown_symbol_dead_end_witness :
    alphabetComplete scenarioA ∧ "x" ∉ scenarioA.alphabet ∧ "x" ≠ "epsilon" ∧
    (∀ y ∈ ["q1"], y ∈ stateNames scenarioA) ∧ epsClosedL scenarioA ["q1"] ∧
    ∃ F0 cur1, simStep scenarioA 1 "x" ["q1"] = some (F0 ++
        [(cur1, [], "Шаг " ++ toString 2 ++ ": Нет перехода по '" ++ "x" ++ "'")], cur1) ∧
      cur1.toFinset = (["q1"] : List String).toFinset ∧
      (F0 = [] ∨ ∃ fired, F0 = [(["q1"], fired, "Шаг " ++ toString 1 ++ ".5: Epsilon-переходы")]) :=
  ⟨by decide, by decide, by decide, by decide, by decide,
   unknown_symbol_dead_end scenarioA (by decide) 1 "x" (by decide) (by decide)
     ["q1"] (by decide) (by decide)⟩

theorem mem_updateState {l : List (String × State)} {k : String} {f : State → State}
    {p : String × State} (hp : p ∈ updateState l k f) :
    ∃ q ∈ l, p = if q.1 = k then (q.1, f q.2) else q := by
  obtain ⟨q, hq, hqe⟩ := List.mem_map.1 hp
  exact ⟨q, hq, hqe.symm⟩

theorem updateState_mem_of {l : List (String × State)} {k : String} {f : State → State}
    {q : String × State} (hq : q ∈ l) :
    (if q.1 = k then (q.1, f q.2) else q) ∈ updateState l k f :=
  List.mem_map_of_mem _ hq

/-- C7 amended: under the invariant that every flagged state is the tracked
start reference, `set_start_state(n)` for a present `n` succeeds, re-points
the reference to `n`, flags `n`, and leaves `n` as the only flagged state;
for an absent `n` it raises `ValueError` (the spec's `UnknownStateError`)
before any mutation. -/
theorem set_start_state_amended (m : FSM) (n : String) (hinv : singleStartInv m) :
    (n ∈ stateNames m →
      ∃ m2, m.set_start_state n = Except.ok m2 ∧
        m2.start_state = some n ∧
        (∃ p ∈ m2.states, p.1 = n ∧ p.2.is_start = true) ∧
        (∀ p ∈ m2.states, p.2.is_start = true → p.1 = n)) ∧
    (n ∉ stateNames m →
      m.set_start_state n =
        Except.error (PyErr.valueError ("Состояние '" ++ n ++ "' не существует"))) := by
  constructor
  · intro hn
    have hcond : ¬ n ∉ stateNames m := fun hc => hc hn
    obtain ⟨q, hq, hqn⟩ := List.mem_map.1 hn
    match hstart : m.start_state with
    | none =>
      refine ⟨⟨updateState m.states n (fun s => { s with is_start := true }),
              m.alphabet, some n⟩, ?_, rfl, ?_, ?_⟩
      · unfold FSM.set_start_state
        rw [if_neg hcond, hstart]
      · have h2 := updateState_mem_of (l := m.states) (k := n)
          (f := fun s => { s with is_start := true }) hq
        rw [if_pos hqn] at h2
        exact ⟨(q.1, { q.2 with is_start := true }), h2, hqn, rfl⟩
      · intro p hp hflag
        have hp2 : p ∈ updateState m.states n (fun s => { s with is_start := true }) := hp
        obtain ⟨r, hr, hpe⟩ := mem_updateState hp2
        by_cases hrn : r.1 = n
        · rw [if_pos hrn] at hpe
          rw [hpe]
          exact hrn
        · rw [if_neg hrn] at hpe
          subst hpe
          exact absurd (hinv p hr hflag) (by simp [hstart])
    | some old =>
      refine ⟨⟨updateState (updateState m.states old (fun s => { s with is_start := false }))
                n (fun s => { s with is_start := true }), m.alphabet, some n⟩, ?_, rfl, ?_, ?_⟩
      · unfold FSM.set_start_state
        rw [if_neg hcond, hstart]
      · have h1 := updateState_mem_of (l := m.states) (k := old)
          (f := fun s => { s with is_start := false }) hq
        have hq11 : (if q.1 = old then (q.1, { q.2 with is_start := false }) else q).1 = n := by
          split
          · exact hqn
          · exact hqn
        have h2 := updateState_mem_of
          (l := updateState m.states old (fun s => { s with is_start := false })) (k := n)
          (f := fun s => { s with is_start := true }) h1
        rw [if_pos hq11] at h2
        exact ⟨_, h2, hq11, rfl⟩
      · intro p hp hflag
        have hp2 : p ∈ updateState
            (updateState m.states old (fun s => { s with is_start := false })) n
            (fun s => { s with is_start := true }) := hp
        obtain ⟨r, hr, hpe⟩ := mem_updateState hp2
        by_cases hrn : r.1 = n
        · rw [if_pos hrn] at hpe
          rw [hpe]
          exact hrn
        · rw [if_neg hrn] at hpe
          subst hpe
          obtain ⟨r2, hr2, hre⟩ := mem_updateState hr
          by_cases hro : r2.1 = old
          · rw [if_pos hro] at hre
            rw [hre] at hflag
            simp at hflag
          · rw [if_neg hro] at hre
            subst hre
            have := hinv p hr2 hflag
            rw [hstart] at this
            exact absurd (Option.some.inj this).symm hro
  · intro hn
    unfold FSM.set_start_state
    rw [if_pos hn]

/-- Witness for the amended C7 on Scenario A with `n = "q1"` (present) and
`n = "missing"` (absent). -/
theorem set_start_state_amended_witness :
    (singleStartInv scenarioA ∧
      ("q1" ∈ stateNames scenarioA →
        ∃ m2, scenarioA.set_start_state "q1" = Except.ok m2 ∧
          m2.start_state = some "q1" ∧
          (∃ p ∈ m2.states, p.1 = "q1" ∧ p.2.is_start = true) ∧
          (∀ p ∈ m2.states, p.2.is_start = true → p.1 = "q1"))) ∧
    ("missing" ∉ stateNames scenarioA →
      scenarioA.set_start_state "missing" =
        Except.error (PyErr.valueError ("Состояние '" ++ "missing" ++ "' не существует"))) :=
  ⟨⟨by decide, (set_start_state_amended scenarioA "q1" (by decide)).1⟩,
   (set_start_state_amended scenarioA "missing" (by decide)).2⟩

theorem length_le_flatMap {l : List (String × State)} {p : String × State} (hp : p ∈ l) :
    p.2.out_transitions.length ≤ (l.flatMap (fun q => q.2.out_transitions)).length := by
  induction l with
  | nil => simp at hp
  | cons a rest ih =>
    rw [List.flatMap_cons, List.length_append]
    rcases List.mem_cons.1 hp with h | h
    · rw [h]
      exact Nat.le_add_right _ _
    · exact le_trans (ih h) (Nat.le_add_left _ _)

/-- With the stated fuel bound the reachability worklist always terminates
with a result on present stacks of a referentially intact machine. -/
theorem reachLoop_total (m : FSM) (hwf : wfTargets m) :
    ∀ (fuel : Nat) (reachable : Finset String) (stack : List String),
      ((stateNames m).toFinset \ reachable).card * (totalTrans m + 1) + stack.length < fuel →
      (∀ x ∈ stack, x ∈ stateNames m) →
      ∃ r, reachLoop m fuel reachable stack = some r := by
  intro fuel
  induction fuel with
  | zero => intro _ _ h; omega
  | succ fuel ih =>
    intro reachable stack hfuel hstack
    match stack with
    | [] => exact ⟨reachable, rfl⟩
    | current :: rest =>
      rw [reachLoop]
      by_cases hc : current ∈ reachable
      · rw [if_pos hc]
        apply ih
        · generalize hA : ((stateNames m).toFinset \ reachable).card * (totalTrans m + 1) = A
            at hfuel ⊢
          simp only [List.length_cons] at hfuel
          omega
        · exact fun x hx => hstack x (List.mem_cons_of_mem _ hx)
      · rw [if_neg hc]
        obtain ⟨st, hst⟩ := lookup_isSome_of_mem (hstack current (by simp))
        rw [hst]
        apply ih
        · have hcurmem : current ∈ (stateNames m).toFinset \ reachable :=
            Finset.mem_sdiff.2 ⟨List.mem_toFinset.2 (hstack current (by simp)), hc⟩
          have hcard : ((stateNames m).toFinset \ insert current reachable).card =
              ((stateNames m).toFinset \ reachable).card - 1 := by
            rw [Finset.sdiff_insert, Finset.card_erase_of_mem hcurmem]
          have hpos : 1 ≤ ((stateNames m).toFinset \ reachable).card :=
            Finset.card_pos.2 ⟨current, hcurmem⟩
          have hpush :
              (((st.out_transitions.filter
                  (fun t => t.to_state ∉ insert current reachable)).map (·.to_state)).reverse).length
                ≤ totalTrans m := by
            rw [List.length_reverse, List.length_map]
            exact le_trans (List.length_filter_le _ _)
              (length_le_flatMap (mem_of_lookup_eq_some hst))
          obtain ⟨d, hd⟩ : ∃ d, ((stateNames m).toFinset \ reachable).card = d + 1 :=
            ⟨((stateNames m).toFinset \ reachable).card - 1, by omega⟩
          rw [hcard, hd]
          rw [hd] at hfuel
          have hexp : (d + 1) * (totalTrans m + 1) = d * (totalTrans m + 1) + totalTrans m + 1 := by
            ring
          rw [hexp] at hfuel
          generalize hA : d * (totalTrans m + 1) = A at hfuel ⊢
          rw [List.length_append]
          simp only [List.length_cons] at hfuel
          simp only [Nat.add_sub_cancel]
          omega
        · intro x hx
          rcases List.mem_append.1 hx with h1 | h1
          · obtain ⟨t, ht, rfl⟩ := List.mem_map.1 (List.mem_reverse.1 h1)
            exact wfTargets_mem hwf hst (List.mem_filter.1 ht).1
          · exact hstack x (List.mem_cons_of_mem _ h1)

/-- `_get_reachable_states` never raises on a referentially intact machine
whose start reference (if set) is present. -/
theorem get_reachable_states_total (m : FSM) (hwf : wfTargets m)
    (hstart : ∀ s, m.start_state = some s → s ∈ stateNames m) :
    ∃ r, get_reachable_states m = some r := by
  unfold get_reachable_states
  match hs : m.start_state with
  | none => exact ⟨∅, rfl⟩
  | some s =>
    apply reachLoop_total m hwf
    · unfold reachFuel
      rw [Finset.sdiff_empty]
      simp only [List.length_singleton]
      omega
    · intro x hx
      rw [List.mem_singleton.1 hx]
      exact hstart s hs

/-- C8: on the automaton with one isolated state and no start state,
`validate()` returns `is_valid = false` with the error-class message for the
missing start state and the warning-class message for the isolated state;
and on every referentially intact automaton `validate()` returns, with
`is_valid` true exactly when the error class is empty (warnings never affect
it). -/
theorem validate_scenarioD_and_is_valid_iff :
    (validate scenarioD = some (false,
       ["Не указано начальное состояние", "Состояние 's1' изолировано (нет переходов)"]) ∧
     "Не указано начальное состояние" ∈ validateErrors scenarioD ∧
     "Состояние 's1' изолировано (нет переходов)" ∈ validateStateWarnings scenarioD) ∧
    ∀ (m : FSM), wfTargets m → (∀ s, m.start_state = some s → s ∈ stateNames m) →
      ∃ b msgs, validate m = some (b, msgs) ∧ (b = true ↔ validateErrors m = []) := by
  constructor
  · exact ⟨by decide, by decide, by decide⟩
  · intro m hwf hstart
    have huw : ∃ uw, validateUnreachableWarnings m = some uw := by
      unfold validateUnreachableWarnings
      match hs : m.start_state with
      | none => exact ⟨[], rfl⟩
      | some s =>
        obtain ⟨r, hr⟩ := get_reachable_states_total m hwf hstart
        rw [hr]
        exact ⟨_, rfl⟩
    obtain ⟨uw, huw⟩ := huw
    refine ⟨(validateErrors m).isEmpty,
            validateErrors m ++ (validateStateWarnings m ++ uw), ?_, ?_⟩
    · unfold validate
      rw [huw]
      rfl
    · simp [List.isEmpty_iff]

/-- Witness for the universal half of C8 at the Scenario D machine. -/
theorem validate_is_valid_iff_witness :
    wfTargets scenarioD ∧ (∀ s, scenarioD.start_state = some s → s ∈ stateNames scenarioD) ∧
    ∃ b msgs, validate scenarioD = some (b, msgs) ∧ (b = true ↔ validateErrors scenarioD = []) :=
  ⟨by decide, by decide,
   validate_scenarioD_and_is_valid_iff.2 scenarioD (by decide) (by decide)⟩

/-! ### C9: adjacency-matrix characterization -/

theorem getD_set_self {α : Type} (l : List α) (i : Nat) (a d : α) (h : i < l.length) :
    (l.set i a).getD i d = a := by
  induction l generalizing i with
  | nil => simp at h
  | cons b l ih =>
    match i with
    | 0 => rfl
    | i + 1 => exact ih i (by simpa using h)

theorem getD_set_ne {α : Type} (l : List α) (i j : Nat) (a d : α) (h : i ≠ j) :
    (l.set i a).getD j d = l.getD j d := by
  induction l generalizing i j with
  | nil => simp [List.set]
  | cons b l ih =>
    match i, j with
    | 0, 0 => exact absurd rfl h
    | 0, j + 1 => rfl
    | i + 1, 0 => rfl
    | i + 1, j + 1 => exact ih i j (fun hc => h (by rw [hc]))

theorem set_getD_self {α : Type} (l : List α) (i : Nat) (d : α) (h : i < l.length) :
    l.set i (l.getD i d) = l := by
  induction l generalizing i with
  | nil => simp at h
  | cons b l ih =>
    match i with
    | 0 => rfl
    | i + 1 =>
      show b :: l.set i (l.getD i d) = b :: l
      rw [ih i (by simpa using h)]

theorem getD_replicate_self {α : Type} (n j : Nat) (a : α) :
    (List.replicate n a).getD j a = a := by
  induction n generalizing j with
  | zero => simp [List.getD]
  | succ n ih =>
    match j with
    | 0 => rfl
    | j + 1 => exact ih j

/-- The row produced by one outer iteration of `get_adjacency_matrix`. -/
def adjRow (names : List String) (ts : List Transition) (row : List Nat) : List Nat :=
  ts.foldl (fun row t => row.set (names.indexOf t.to_state) 1) row

theorem adjRow_length (names : List String) (ts : List Transition) (row : List Nat) :
    (adjRow names ts row).length = row.length := by
  induction ts generalizing row with
  | nil => rfl
  | cons t ts ih =>
    show (adjRow names ts (row.set _ 1)).length = row.length
    rw [ih, List.length_set]

theorem adjRow_getD (names : List String) :
    ∀ (ts : List Transition) (row : List Nat) (j : Nat),
      (∀ t ∈ ts, t.to_state ∈ names) → row.length = names.length →
      ((adjRow names ts row).getD j 0 = 1 ↔
        ((∃ t ∈ ts, names.indexOf t.to_state = j) ∨ row.getD j 0 = 1)) := by
  intro ts
  induction ts with
  | nil => intro row j _ _; simp [adjRow]
  | cons t ts ih =>
    intro row j hts hlen
    have hjt : names.indexOf t.to_state < row.length := by
      rw [hlen]
      exact List.indexOf_lt_length.2 (hts t (by simp))
    have hstep : adjRow names (t :: ts) row =
        adjRow names ts (row.set (names.indexOf t.to_state) 1) := rfl
    rw [hstep, ih _ j (fun u hu => hts u (List.mem_cons_of_mem _ hu))
        (by rw [List.length_set]; exact hlen)]
    by_cases hj : names.indexOf t.to_state = j
    · rw [← hj, getD_set_self _ _ _ _ hjt]
      simp only [List.mem_cons]
      constructor
      · intro _; exact Or.inl ⟨t, Or.inl rfl, rfl⟩
      · intro _; exact Or.inr trivial
    · rw [getD_set_ne _ _ _ _ _ hj]
      simp only [List.mem_cons]
      constructor
      · rintro (⟨u, hu, hju⟩ | h)
        · exact Or.inl ⟨u, Or.inr hu, hju⟩
        · exact Or.inr h
      · rintro (⟨u, hu | hu, hju⟩ | h)
        · exact absurd (hu ▸ hju) hj
        · exact Or.inl ⟨u, hu, hju⟩
        · exact Or.inr h

theorem adj_inner (names : List String) (i : Nat) :
    ∀ (ts : List Transition) (mat : List (List Nat)), i < mat.length →
      (∀ t ∈ ts, t.to_state ∈ names) →
      List.foldlM (fun mat (t : Transition) =>
          if t.to_state ∈ names then
            some (mat.set i ((mat.getD i []).set (names.indexOf t.to_state) 1))
          else none) mat ts =
        some (mat.set i (adjRow names ts (mat.getD i []))) := by
  intro ts
  induction ts with
  | nil =>
    intro mat hi _
    rw [List.foldlM_nil]
    rw [show adjRow names [] (mat.getD i []) = mat.getD i [] from rfl]
    rw [set_getD_self _ _ _ hi]
    rfl
  | cons t ts ih =>
    intro mat hi hts
    rw [List.foldlM_cons, if_pos (hts t (by simp))]
    simp only [Option.bind_eq_bind, Option.some_bind]
    rw [ih _ (by rw [List.length_set]; exact hi)
        (fun u hu => hts u (List.mem_cons_of_mem _ hu))]
    rw [getD_set_self _ _ _ _ hi, List.set_set]
    rfl

theorem adj_outer (names : List String) :
    ∀ (l : List (String × State)) (k : Nat) (mat : List (List Nat)),
      (∀ p ∈ l, ∀ t ∈ p.2.out_transitions, t.to_state ∈ names) →
      k + l.length ≤ mat.length →
      ∃ M, List.foldlM (fun mat (p : Nat × (String × State)) =>
          List.foldlM (fun mat (t : Transition) =>
            if t.to_state ∈ names then
              some (mat.set p.1 ((mat.getD p.1 []).set (names.indexOf t.to_state) 1))
            else none) mat p.2.2.out_transitions) mat (List.enumFrom k l) = some M ∧
        M.length = mat.length ∧
        (∀ j, (M.getD j []).length = (mat.getD j []).length) ∧
        (∀ j, j < k → M.getD j [] = mat.getD j []) ∧
        (∀ o, (ho : o < l.length) → M.getD (k + o) [] =
          adjRow names (l.get ⟨o, ho⟩).2.out_transitions (mat.getD (k + o) [])) := by
  intro l
  induction l with
  | nil =>
    intro k mat _ _
    exact ⟨mat, rfl, rfl, fun _ => rfl, fun _ _ => rfl, fun o ho => absurd ho (by simp)⟩
  | cons p l ih =>
    intro k mat hl hlen
    have hk : k < mat.length := by simp at hlen; omega
    rw [show List.enumFrom k (p :: l) = (k, p) :: List.enumFrom (k + 1) l from rfl,
        List.foldlM_cons]
    rw [adj_inner names k p.2.out_transitions mat hk (hl p (by simp))]
    simp only [Option.bind_eq_bind, Option.some_bind]
    obtain ⟨M, hM, hMlen, hMrow, hMlow, hMhigh⟩ := ih (k + 1)
      (mat.set k (adjRow names p.2.out_transitions (mat.getD k [])))
      (fun q hq => hl q (List.mem_cons_of_mem _ hq))
      (by rw [List.length_set]; simp at hlen ⊢; omega)
    refine ⟨M, hM, by rw [hMlen, List.length_set], ?_, ?_, ?_⟩
    · intro j
      rw [hMrow j]
      by_cases hj : k = j
      · rw [← hj, getD_set_self _ _ _ _ hk, adjRow_length]
      · rw [getD_set_ne _ _ _ _ _ hj]
    · intro j hj
      rw [hMlow j (by omega), getD_set_ne _ _ _ _ _ (by omega)]
    · intro o ho
      match o with
      | 0 =>
        simp only [Nat.add_zero]
        rw [hMlow k (by omega)]
        rw [getD_set_self _ _ _ _ hk]
        rfl
      | o + 1 =>
        have ho' : o < l.length := by simpa using ho
        have harith : k + (o + 1) = (k + 1) + o := by omega
        rw [harith, hMhigh o ho', getD_set_ne _ _ _ _ _ (by omega)]
        rfl

theorem getD_replicate_of_lt {α : Type} (n j : Nat) (a d : α) (h : j < n) :
    (List.replicate n a).getD j d = a := by
  induction n generalizing j with
  | zero => omega
  | succ n ih =>
    match j with
    | 0 => rfl
    | j + 1 => exact ih j (by omega)

/-- C9: on a referentially intact machine with (dict-guaranteed) unique state
names, `get_adjacency_matrix` returns a square matrix over the state names in
insertion order, with entry `[i][j]` equal to 1 exactly when some stored
transition (of any symbol, epsilon included) leads from state i to state j —
equivalently, when `get_transitions_by_symbol` from state i yields state j
for some symbol. -/
theorem adjacency_matrix_spec (m : FSM) (hwf : wfTargets m)
    (hnd : (stateNames m).Nodup) :
    ∃ M, get_adjacency_matrix m = some (M, stateNames m) ∧
      M.length = (stateNames m).length ∧
      (∀ row ∈ M, row.length = (stateNames m).length) ∧
      (∀ i j, i < (stateNames m).length → j < (stateNames m).length →
        (((M.getD i []).getD j 0 = 1) ↔
          ∃ t ∈ (m.states.getD i ("", ⟨"", false, false, [], []⟩)).2.out_transitions,
            t.to_state = (stateNames m).getD j "") ∧
        (((M.getD i []).getD j 0 = 1) ↔
          ∃ s, (stateNames m).getD j "" ∈
            State.get_transitions_by_symbol
              (m.states.getD i ("", ⟨"", false, false, [], []⟩)).2 s)) := by
  have hlen : (stateNames m).length = m.states.length := by
    rw [stateNames, List.length_map]
  obtain ⟨M, hM, hMlen, hMrow, _, hMhigh⟩ := adj_outer (stateNames m) m.states 0
    (List.replicate (stateNames m).length (List.replicate (stateNames m).length 0))
    (fun p hp t ht => hwf p hp t ht)
    (by rw [List.length_replicate]; omega)
  have hMlen2 : M.length = (stateNames m).length := by
    rw [hMlen, List.length_replicate]
  have hrowlen : ∀ j, j < (stateNames m).length → (M.getD j []).length = (stateNames m).length := by
    intro j hj
    rw [hMrow j, getD_replicate_of_lt _ _ _ _ hj, List.length_replicate]
  refine ⟨M, ?_, hMlen2, ?_, ?_⟩
  · simp only [get_adjacency_matrix]
    rw [show m.states.enum = List.enumFrom 0 m.states from rfl, hM]
    rfl
  · intro row hrow
    obtain ⟨i, hi⟩ := List.get_of_mem hrow
    have hiM : (i : Nat) < (stateNames m).length := by
      have := i.isLt
      omega
    rw [← hi, ← List.getD_eq_get M [] i.isLt]
    exact hrowlen i hiM
  · intro i j hi hj
    have hi2 : i < m.states.length := by omega
    have hMi : M.getD i [] = adjRow (stateNames m)
        (m.states.get ⟨i, hi2⟩).2.out_transitions
        (List.replicate (stateNames m).length 0) := by
      have := hMhigh i hi2
      simp only [Nat.zero_add] at this
      rw [this, getD_replicate_of_lt _ _ _ _ (by omega : i < (stateNames m).length)]
    have hts : ∀ t ∈ (m.states.get ⟨i, hi2⟩).2.out_transitions, t.to_state ∈ stateNames m :=
      fun t ht => hwf _ (List.get_mem m.states i hi2) t ht
    have hbase : (List.replicate (stateNames m).length (0 : Nat)).getD j 0 = 0 :=
      getD_replicate_self _ _ _
    have hiff1 : (M.getD i []).getD j 0 = 1 ↔
        ∃ t ∈ (m.states.get ⟨i, hi2⟩).2.out_transitions,
          (stateNames m).indexOf t.to_state = j := by
      rw [hMi, adjRow_getD (stateNames m) _ _ j hts (List.length_replicate _ _), hbase]
      simp
    have hgetD : m.states.getD i ("", ⟨"", false, false, [], []⟩) = m.states.get ⟨i, hi2⟩ :=
      List.getD_eq_get _ _ hi2
    have hidx : ∀ t ∈ (m.states.get ⟨i, hi2⟩).2.out_transitions,
        ((stateNames m).indexOf t.to_state = j ↔ t.to_state = (stateNames m).getD j "") := by
      intro t ht
      constructor
      · intro hij
        rw [List.getD_eq_get _ _ hj]
        subst hij
        exact (List.indexOf_get (List.indexOf_lt_length.2 (hts t ht))).symm
      · intro hts'
        rw [hts', List.getD_eq_get _ _ hj]
        have := List.indexOf_getElem hnd j hj
        simpa using this
    have hiff2 : (M.getD i []).getD j 0 = 1 ↔
        ∃ t ∈ (m.states.get ⟨i, hi2⟩).2.out_transitions,
          t.to_state = (stateNames m).getD j "" := by
      rw [hiff1]
      constructor
      · rintro ⟨t, ht, hidxj⟩
        exact ⟨t, ht, (hidx t ht).1 hidxj⟩
      · rintro ⟨t, ht, hto⟩
        exact ⟨t, ht, (hidx t ht).2 hto⟩
    rw [hgetD]
    refine ⟨hiff2, ?_⟩
    rw [hiff2]
    constructor
    · rintro ⟨t, ht, hto⟩
      refine ⟨t.symbol, ?_⟩
      unfold State.get_transitions_by_symbol
      rw [← hto]
      exact List.mem_map_of_mem _ (List.mem_filter.2 ⟨ht, by simp⟩)
    · rintro ⟨s, hs⟩
      unfold State.get_transitions_by_symbol at hs
      obtain ⟨t, ht, hto⟩ := List.mem_map.1 hs
      exact ⟨t, (List.mem_filter.1 ht).1, hto⟩

/-- Witness for C9 on Scenario A. -/
theorem adjacency_matrix_spec_witness :
    wfTargets scenarioA ∧ (stateNames scenarioA).Nodup ∧
    ∃ M, get_adjacency_matrix scenarioA = some (M, stateNames scenarioA) ∧
      M.length = (stateNames scenarioA).length ∧
      (∀ row ∈ M, row.length = (stateNames scenarioA).length) ∧
      (∀ i j, i < (stateNames scenarioA).length → j < (stateNames scenarioA).length →
        (((M.getD i []).getD j 0 = 1) ↔
          ∃ t ∈ (scenarioA.states.getD i ("", ⟨"", false, false, [], []⟩)).2.out_transitions,
            t.to_state = (stateNames scenarioA).getD j "") ∧
        (((M.getD i []).getD j 0 = 1) ↔
          ∃ s, (stateNames scenarioA).getD j "" ∈
            State.get_transitions_by_symbol
              (scenarioA.states.getD i ("", ⟨"", false, false, [], []⟩)).2 s)) :=
  ⟨by decide, by decide, adjacency_matrix_spec scenarioA (by decide) (by decide)⟩
